import Mathlib

/-!
Verification of the news-ingestion core of this repository.

The embedding below translates, definition by definition:
* `src/api/spider.js` — the HTML-to-text extractor `extractContent` and the
  ingestion `handler` with its read-modify-write queue round-trip over the
  remote blob store;
* `src/components/EntryForm.tsx` — the record constructors
  `handleManualSubmit` and `handleAiAnalyze`.

Strings are modelled as lists of characters (`String.data`); the regex
replacements of the extractor are translated into explicit left-to-right
scans that mirror the JavaScript regex engine's behaviour on the concrete
patterns used by the source (greedy character classes, non-greedy block
bodies, global continuation after each match).
-/

namespace Ingest

/-- ASCII lower-casing of a character. Models the effect of the `/i` flag on
the regexes of `src/api/spider.js`, whose patterns are all ASCII. Written as
an explicit table so that facts such as `lowerChar c = '<' → c = '<'` follow
by case analysis. -/
def lowerChar (c : Char) : Char :=
  if c = 'A' then 'a' else if c = 'B' then 'b' else if c = 'C' then 'c'
  else if c = 'D' then 'd' else if c = 'E' then 'e' else if c = 'F' then 'f'
  else if c = 'G' then 'g' else if c = 'H' then 'h' else if c = 'I' then 'i'
  else if c = 'J' then 'j' else if c = 'K' then 'k' else if c = 'L' then 'l'
  else if c = 'M' then 'm' else if c = 'N' then 'n' else if c = 'O' then 'o'
  else if c = 'P' then 'p' else if c = 'Q' then 'q' else if c = 'R' then 'r'
  else if c = 'S' then 's' else if c = 'T' then 't' else if c = 'U' then 'u'
  else if c = 'V' then 'v' else if c = 'W' then 'w' else if c = 'X' then 'x'
  else if c = 'Y' then 'y' else if c = 'Z' then 'z' else c

/-- Case-sensitive literal match at the head of the input. -/
def startsCS : List Char → List Char → Bool
  | [], _ => true
  | _ :: _, [] => false
  | p :: ps, c :: cs => p == c && startsCS ps cs

/-- Case-insensitive literal match at the head of the input; the pattern is
given in lower case. -/
def startsCI : List Char → List Char → Bool
  | [], _ => true
  | _ :: _, [] => false
  | p :: ps, c :: cs => p == lowerChar c && startsCI ps cs

/-- Does the (lower-case) pattern occur case-insensitively anywhere in the
input? -/
def hasCiSubstr (pat : List Char) : List Char → Bool
  | [] => startsCI pat []
  | c :: cs => startsCI pat (c :: cs) || hasCiSubstr pat cs

/-- Suffix of the input after the first `'>'`; models `[^>]*>` of the open-tag
regexes (the greedy class stops exactly at the first `'>'`). -/
def afterGt : List Char → Option (List Char)
  | [] => none
  | c :: cs => if c = '>' then some cs else afterGt cs

/-- Suffix of the input after the first case-insensitive occurrence of the
pattern; models the non-greedy `[\s\S]*?` up to a closing literal. -/
def dropUntilCi (pat : List Char) : List Char → Option (List Char)
  | [] => if startsCI pat [] then some [] else none
  | c :: cs =>
    if startsCI pat (c :: cs) then some ((c :: cs).drop pat.length)
    else dropUntilCi pat cs

/-- Case-sensitive variant of `dropUntilCi`, for the comment pattern. -/
def dropUntilCS (pat : List Char) : List Char → Option (List Char)
  | [] => if startsCS pat [] then some [] else none
  | c :: cs =>
    if startsCS pat (c :: cs) then some ((c :: cs).drop pat.length)
    else dropUntilCS pat cs

/-- Match of `<tag[^>]*>` at the head of the input (`tag` given in lower
case); returns the suffix after the open tag. Faithful to the source's
patterns, which allow arbitrary non-`'>'` characters directly after the tag
name. -/
def matchOpenTag (t : List Char) : List Char → Option (List Char)
  | [] => none
  | c :: cs =>
    if c == '<' && startsCI t cs then afterGt (cs.drop t.length) else none

/-- The closing literal `</tag>`. -/
def closeTag (t : List Char) : List Char := '<' :: '/' :: (t ++ ['>'])

/-- Match of a whole `<tag[^>]*>[\s\S]*?</tag>` block at the head of the
input; returns the suffix after the closing tag. -/
def matchBlock (t : List Char) (cs : List Char) : Option (List Char) :=
  match matchOpenTag t cs with
  | none => none
  | some r => dropUntilCi (closeTag t) r

/-- Match of a whole `<!--[\s\S]*?-->` comment at the head of the input
(line 14 of `src/api/spider.js`; no `/i` flag). -/
def matchComment (cs : List Char) : Option (List Char) :=
  if startsCS ['<', '!', '-', '-'] cs then dropUntilCS ['-', '-', '>'] (cs.drop 4)
  else none

/-- After a `'<'`, match `[^>]+>`: at least one non-`'>'` character and then
the first `'>'`. -/
def gtGap : List Char → Option (List Char)
  | [] => none
  | c :: cs => if c = '>' then none else afterGt (c :: cs)

/-- Match of `<[^>]+>` at the head of the input (line 22 of
`src/api/spider.js`). -/
def matchLtTag : List Char → Option (List Char)
  | [] => none
  | c :: cs => if c = '<' then gtGap cs else none

/-- Match of the literal `&nbsp;` at the head of the input (line 27). -/
def matchNbsp (cs : List Char) : Option (List Char) :=
  if startsCS ['&', 'n', 'b', 's', 'p', ';'] cs then some (cs.drop 6) else none

/-- ASCII fragment of the JavaScript `\s` class (and of `String.trim`'s
whitespace); the source documents only deal with these characters. -/
def isSpaceB (c : Char) : Bool :=
  c == ' ' || c == '\t' || c == '\n' || c == '\r' || c == '\x0b' || c == '\x0c'

/-- Given the input after a leading `'\n'`, find the last `'\n'` inside the
maximal run of whitespace and return the suffix after it. This is what the
backtracking greedy `\s*` followed by the literal `\n` matches. -/
def lastNlSplit : List Char → Option (List Char)
  | [] => none
  | c :: cs =>
    if isSpaceB c then
      match lastNlSplit cs with
      | some r => some r
      | none => if c = '\n' then some cs else none
    else none

/-- Match of `\n\s*\n` (line 28) at the head of the input. -/
def matchBlankRun : List Char → Option (List Char)
  | [] => none
  | c :: cs => if c = '\n' then lastNlSplit cs else none

/-- One global regex replacement: scan left to right; where the matcher `m`
fires, emit the replacement `e` and continue after the match, otherwise copy
one character. The fuel argument bounds the number of scan steps; every
caller passes the input length, which suffices because each step consumes at
least one character. -/
def replPass (m : List Char → Option (List Char)) (e : List Char) :
    Nat → List Char → List Char
  | 0, cs => cs
  | _ + 1, [] => []
  | f + 1, c :: cs =>
    match m (c :: cs) with
    | some rest => e ++ replPass m e f rest
    | none => c :: replPass m e f cs

/-- A global regex replacement run with enough fuel. -/
def runRepl (m : List Char → Option (List Char)) (e : List Char)
    (cs : List Char) : List Char :=
  replPass m e cs.length cs

/-- `.replace(/<tag[^>]*>[\s\S]*?<\/tag>/gi, '')` (lines 12-19). -/
def stripTag (t : List Char) (cs : List Char) : List Char :=
  runRepl (matchBlock t) [] cs

/-- `.replace(/<!--[\s\S]*?-->/g, '')` (line 14). -/
def stripComments (cs : List Char) : List Char := runRepl matchComment [] cs

/-- `.replace(/<[^>]+>/g, '\n')` (line 22). -/
def collapseTags (cs : List Char) : List Char := runRepl matchLtTag ['\n'] cs

/-- `.replace(/&nbsp;/g, ' ')` (line 27). -/
def nbspToSpace (cs : List Char) : List Char := runRepl matchNbsp [' '] cs

/-- `.replace(/\n\s*\n/g, '\n')` (line 28). -/
def squeezeBlank (cs : List Char) : List Char := runRepl matchBlankRun ['\n'] cs

/-- `String.prototype.trim` on the character list. -/
def trimChars (cs : List Char) : List Char :=
  ((cs.dropWhile isSpaceB).reverse.dropWhile isSpaceB).reverse

/-- `String.prototype.trim`. -/
def jsTrim (s : String) : String := String.mk (trimChars s.data)

/-- The tag name of the title pattern. -/
def titleWord : List Char := ['t', 'i', 't', 'l', 'e']

/-- Match of `/<title[^>]*>([^<]+)<\/title>/i` at the head of the input,
returning the captured group: after the open tag, the greedy `[^<]+` group
runs to the first `'<'`, which must begin the literal `</title>`. -/
def matchTitleAt (cs : List Char) : Option (List Char) :=
  match matchOpenTag titleWord cs with
  | none => none
  | some r =>
    let grp := r.takeWhile (fun c => c != '<')
    if grp = [] then none
    else if startsCI (closeTag titleWord) (r.dropWhile (fun c => c != '<')) then
      some grp
    else none

/-- First match of the title pattern anywhere in the input, as
`html.match(...)` computes it (line 7 of `src/api/spider.js`). -/
def findTitle : List Char → Option (List Char)
  | [] => none
  | c :: cs =>
    match matchTitleAt (c :: cs) with
    | some g => some g
    | none => findTitle cs

/-- Result of `extractContent`. -/
structure Extracted where
  title : String
  text : String
  deriving DecidableEq

/-- The eight block-removal replacements of lines 12-19, in source order:
script, style, comments, nav, header, footer, iframe, svg. -/
def removeBlocks (cs : List Char) : List Char :=
  stripTag ['s', 'v', 'g']
    (stripTag ['i', 'f', 'r', 'a', 'm', 'e']
      (stripTag ['f', 'o', 'o', 't', 'e', 'r']
        (stripTag ['h', 'e', 'a', 'd', 'e', 'r']
          (stripTag ['n', 'a', 'v']
            (stripComments
              (stripTag ['s', 't', 'y', 'l', 'e']
                (stripTag ['s', 'c', 'r', 'i', 'p', 't'] cs)))))))

/-- `extractContent` (lines 4-36 of `src/api/spider.js`): title from the
first `<title[^>]*>([^<]+)</title>` match with the placeholder `无标题` when
absent; body text from stripping blocks, collapsing the remaining tags to
newlines, normalising whitespace, trimming, and truncating to 5000
characters. The `try`/`catch` of the source is unreachable for this pure
translation, so it is omitted. -/
def extractContent (html : String) : Extracted :=
  let cs := html.data
  let title :=
    match findTitle cs with
    | some g => String.mk (trimChars g)
    | none => "无标题"
  let body := removeBlocks cs
  let t1 := collapseTags body
  let t2 := t1.map fun c => if c = '\t' then ' ' else c
  let t3 := nbspToSpace t2
  let t4 := squeezeBlank t3
  let t5 := trimChars t4
  { title := title, text := String.mk (t5.take 5000) }

/-- A queued article, as built on lines 92-99 of `src/api/spider.js` and
consumed by `src/components/EntryForm.tsx` (interface `PendingItem`). -/
structure PendingItem where
  id : String
  url : String
  title : String
  text : String
  scrapedAt : String
  source : String
  deriving DecidableEq

/-- One stored blob of the remote object store. `content` is the result of
fetching the blob's URL and parsing it as a JSON array of `PendingItem`:
`none` models a failed fetch (`oldRes.ok` false) or a JSON parse failure,
both of which leave `pendingList` empty on lines 82-88. -/
structure Blob where
  pathname : String
  content : Option (List PendingItem)
  deriving DecidableEq

/-- The remote object store: the blobs in listing order. -/
abbrev Store := List Blob

/-- `(await list({ token, limit: 100 })).blobs.find(b => b.pathname ===
'pending.json')` (lines 78-79): the listing returns at most the first `n`
blobs (`n = 100` at the call site) and the queue document is searched only
among them. -/
def findPendingIn : Nat → Store → Option Blob
  | _, [] => none
  | 0, _ :: _ => none
  | n + 1, b :: bs =>
    if b.pathname = "pending.json" then some b else findPendingIn n bs

/-- The queue read of lines 76-89: resolve `pending.json` among the first
100 listed blobs and parse it; on a missing document, failed fetch, or parse
failure the caller proceeds with the empty list. -/
def readPending (s : Store) : List PendingItem :=
  match findPendingIn 100 s with
  | some b => b.content.getD []
  | none => []

/-- `put('pending.json', ..., { addRandomSuffix: false, addOverwrite: true })`
(lines 105-111): a full overwrite of the document at its fixed path,
creating the blob when it does not exist yet. -/
def putPending : Store → List PendingItem → Store
  | [], doc => [⟨"pending.json", some doc⟩]
  | b :: bs, doc =>
    if b.pathname = "pending.json" then ⟨"pending.json", some doc⟩ :: bs
    else b :: putPending bs doc

/-- Outcome of the outer `fetch(url, ...)` of lines 59-68, after the
`AbortError` translation of lines 115-121. -/
inductive FetchOutcome where
  | ok (html : String)
  | httpError (status : Nat)
  | timeout
  | networkError (msg : String)

/-- Store interactions performed by one request, in order. -/
inductive StoreOp where
  | read
  | write
  deriving DecidableEq

/-- Observable outcome of one ingestion request: HTTP status, error message
of the JSON body (when any), the store after the request, the document
content passed to `put` (when a write happened), the store operations
performed, and the `item` of a success body. -/
structure HandlerResult where
  status : Nat
  error : Option String
  store : Store
  written : Option (List PendingItem)
  ops : List StoreOp
  item : Option PendingItem
  deriving DecidableEq

/-- The ingestion endpoint `handler` of `src/api/spider.js` (lines 38-127).
Nondeterministic inputs of the environment are passed explicitly: the fetch
outcome, the random id of line 93 (`Math.random().toString(36)...`), the
date of line 97 and the hostname of line 98. `url = ""` models the falsy
check of line 52. -/
def handler (hasToken : Bool) (method : String) (url : String)
    (fetched : FetchOutcome) (newId : String) (today : String) (host : String)
    (s : Store) : HandlerResult :=
  if method = "OPTIONS" then ⟨200, none, s, none, [], none⟩
  else if hasToken = false then
    ⟨503, some "服务器配置错误: 未配置 Blob Token", s, none, [], none⟩
  else if ¬ method = "POST" then ⟨405, none, s, none, [], none⟩
  else if url = "" then ⟨400, some "URL 不能为空", s, none, [], none⟩
  else
    match fetched with
    | .timeout => ⟨500, some "抓取超时 (15s): 目标网站响应过慢", s, none, [], none⟩
    | .httpError st =>
      ⟨500, some ("抓取失败: 目标网站返回 " ++ toString st), s, none, [], none⟩
    | .networkError msg => ⟨500, some msg, s, none, [], none⟩
    | .ok html =>
      let e := extractContent html
      if e.text.length < 50 then
        ⟨500, some "未能提取到有效内容 (可能内容过短或为纯动态渲染)", s, none, [], none⟩
      else
        let pendingList := readPending s
        let newItem : PendingItem := ⟨newId, url, e.title, e.text, today, host⟩
        let newList := newItem :: pendingList
        ⟨200, none, putPending s newList, some newList,
          [StoreOp.read, StoreOp.write], some newItem⟩

/-- Two concurrent ingestions racing on the queue document: both perform the
read of lines 76-89 against the same initial store, then both perform the
overwrite of lines 105-111, the second writer last. There is no
compare-and-swap, so each writer overwrites with its own stale list. -/
def raceAppend (s : Store) (i1 i2 : PendingItem) : Store :=
  let l1 := readPending s
  let l2 := readPending s
  let s1 := putPending s (i1 :: l1)
  putPending s1 (i2 :: l2)

/-- The closed `type` enumeration of the data model (`NewsType` of
`src/types.ts`, listed in `src/constants.ts` as `NEWS_TYPES_LIST`). -/
inductive NewsType where
  | launch
  | policy
  | sales
  | personnel
  | competitor
  | other
  deriving DecidableEq

/-- Modelled from the spec: the raw Analyzer (Qwen) response consumed by
`analyzeTextWithQwen` of `src/services/qwenService`, which is not present
under `src/`; fields per section 4.4 of the spec. `rtype` is the raw,
untrusted `type` string. -/
structure QwenRaw where
  title : String
  summary : String
  brand : String
  rtype : String
  date : String
  url : String
  image_keywords : String

/-- The validated Analyzer result handed to `handleAiAnalyze`. -/
structure AnalyzeResult where
  title : String
  summary : String
  brand : String
  type : NewsType
  date : String
  url : String
  image_keywords : String

/-- Modelled from the spec: the `type` coercion of the missing
`src/services/qwenService` — "`type` must be coerced into the closed
enumeration; unknown values fall back to `other`" (spec section 4.4). The
enumeration's string values are the spec's names. -/
def coerceType (t : String) : NewsType :=
  if t = "launch" then .launch
  else if t = "policy" then .policy
  else if t = "sales" then .sales
  else if t = "personnel" then .personnel
  else if t = "competitor" then .competitor
  else .other

/-- Modelled from the spec: the validation `analyzeTextWithQwen` applies to
the raw Analyzer response before `handleAiAnalyze` consumes it; only the
`type` field needs coercion for the claims below, the other fields pass
through. -/
def analyzeValidate (raw : QwenRaw) : AnalyzeResult :=
  ⟨raw.title, raw.summary, raw.brand, coerceType raw.rtype, raw.date, raw.url,
    raw.image_keywords⟩

/-- The promoted record (`NewsItem` of `src/types.ts` without the generated
`id`, as passed to `onAdd`). -/
structure NewsRecord where
  title : String
  summary : String
  brand : String
  type : NewsType
  date : String
  url : String
  source : String
  image : String
  deriving DecidableEq

/-- `generateImageUrl` of `src/components/EntryForm.tsx` (lines 117-119).
`enc` stands for `encodeURIComponent` and `seed` for
`Math.floor(Math.random()*1000)`, both passed explicitly. -/
def generateImageUrl (enc : String → String) (seed : Nat) (prompt : String) :
    String :=
  "https://image.pollinations.ai/prompt/" ++ enc prompt ++
    "?width=800&height=600&nologo=true&seed=" ++ toString seed

/-- The manual-entry form state (`formData` of `src/components/EntryForm.tsx`,
lines 95-104). -/
structure ManualForm where
  title : String
  summary : String
  brand : String
  type : NewsType
  date : String
  url : String
  source : String
  image : String

/-- `handleManualSubmit` (lines 121-134): when the supplied image URL trims
to the empty string it is replaced by a generated-image URL built from
brand and title. -/
def handleManualSubmit (enc : String → String) (seed : Nat)
    (form : ManualForm) : NewsRecord :=
  let finalImage :=
    if jsTrim form.image ≠ "" then jsTrim form.image
    else generateImageUrl enc seed (form.brand ++ " " ++ form.title ++ " automotive")
  ⟨form.title, form.summary, form.brand, form.type, form.date, form.url,
    form.source, finalImage⟩

/-- `handleAiAnalyze` (lines 136-180): the validated Analyzer result is
turned into a record; an empty-trimming caller image URL is replaced by a
generated one built from the Analyzer's image keywords, falling back to
"brand car news". -/
def handleAiAnalyze (enc : String → String) (seed : Nat)
    (aiImageInput : String) (raw : QwenRaw) : NewsRecord :=
  let result := analyzeValidate raw
  let finalImage :=
    if jsTrim aiImageInput ≠ "" then jsTrim aiImageInput
    else
      generateImageUrl enc seed
        (if result.image_keywords ≠ "" then result.image_keywords
         else result.brand ++ " car news")
  ⟨result.title, result.summary, result.brand, result.type, result.date,
    (if result.url ≠ "" then result.url else aiImageInput),
    "AI 智能提取 (Qwen)", finalImage⟩

/-! Basic facts about the scanning primitives. -/

theorem afterGt_suffix : ∀ {cs r : List Char}, afterGt cs = some r → r <:+ cs := by
  intro cs
  induction cs with
  | nil => intro r h; simp [afterGt] at h
  | cons c cs ih =>
    intro r h
    rw [afterGt] at h
    split at h
    · cases h; exact List.suffix_cons c cs
    · exact (ih h).trans (List.suffix_cons c cs)

theorem afterGt_length {cs r : List Char} (h : afterGt cs = some r) :
    r.length < cs.length := by
  induction cs with
  | nil => simp [afterGt] at h
  | cons c cs ih =>
    rw [afterGt] at h
    split at h
    · cases h; simp
    · exact Nat.lt_trans (ih h) (by simp)

theorem dropUntilCi_suffix {pat : List Char} :
    ∀ {cs r : List Char}, dropUntilCi pat cs = some r → r <:+ cs := by
  intro cs
  induction cs with
  | nil =>
    intro r h
    rw [dropUntilCi] at h
    split at h
    · cases h; exact List.nil_suffix
    · cases h
  | cons c cs ih =>
    intro r h
    rw [dropUntilCi] at h
    split at h
    · cases h; exact List.drop_suffix _ _
    · exact (ih h).trans (List.suffix_cons c cs)

theorem dropUntilCS_suffix {pat : List Char} :
    ∀ {cs r : List Char}, dropUntilCS pat cs = some r → r <:+ cs := by
  intro cs
  induction cs with
  | nil =>
    intro r h
    rw [dropUntilCS] at h
    split at h
    · cases h; exact List.nil_suffix
    · cases h
  | cons c cs ih =>
    intro r h
    rw [dropUntilCS] at h
    split at h
    · cases h; exact List.drop_suffix _ _
    · exact (ih h).trans (List.suffix_cons c cs)

theorem startsCS_length : ∀ {pat cs : List Char}, startsCS pat cs = true →
    pat.length ≤ cs.length := by
  intro pat
  induction pat with
  | nil => intro cs _; simp
  | cons p ps ih =>
    intro cs h
    cases cs with
    | nil => simp [startsCS] at h
    | cons c cs =>
      rw [startsCS, Bool.and_eq_true] at h
      simp only [List.length_cons]
      exact Nat.succ_le_succ (ih h.2)

theorem matchOpenTag_some {t : List Char} :
    ∀ {cs r : List Char}, matchOpenTag t cs = some r →
      ∃ c cs2, cs = c :: cs2 ∧ c = '<' ∧ startsCI t cs2 = true ∧
        afterGt (cs2.drop t.length) = some r := by
  intro cs r h
  cases cs with
  | nil => simp [matchOpenTag] at h
  | cons c cs2 =>
    rw [matchOpenTag] at h
    split at h
    · rename_i hcond
      rw [Bool.and_eq_true, beq_iff_eq] at hcond
      exact ⟨c, cs2, rfl, hcond.1, hcond.2, h⟩
    · cases h

theorem matchOpenTag_suffix {t cs r : List Char}
    (h : matchOpenTag t cs = some r) : r <:+ cs ∧ r.length < cs.length := by
  obtain ⟨c, cs2, rfl, _, _, hgt⟩ := matchOpenTag_some h
  constructor
  · exact ((afterGt_suffix hgt).trans (List.drop_suffix _ _)).trans
      (List.suffix_cons c cs2)
  · have h1 := afterGt_length hgt
    have h2 : (cs2.drop t.length).length ≤ cs2.length := by
      simp
    have : r.length < cs2.length := Nat.lt_of_lt_of_le h1 h2
    exact Nat.lt_trans this (by simp)

theorem matchBlock_suffix {t cs r : List Char} (h : matchBlock t cs = some r) :
    r <:+ cs := by
  rw [matchBlock] at h
  cases ho : matchOpenTag t cs with
  | none => rw [ho] at h; cases h
  | some r1 =>
    rw [ho] at h
    exact (dropUntilCi_suffix h).trans (matchOpenTag_suffix ho).1

theorem matchBlock_length {t : List Char} : ∀ {cs r : List Char},
    matchBlock t cs = some r → r.length < cs.length := by
  intro cs r h
  rw [matchBlock] at h
  cases ho : matchOpenTag t cs with
  | none => rw [ho] at h; cases h
  | some r1 =>
    rw [ho] at h
    exact Nat.lt_of_le_of_lt ((dropUntilCi_suffix h).length_le)
      (matchOpenTag_suffix ho).2

theorem matchComment_suffix : ∀ {cs r : List Char},
    matchComment cs = some r → r <:+ cs := by
  intro cs r h
  rw [matchComment] at h
  split at h
  · exact (dropUntilCS_suffix h).trans (List.drop_suffix _ _)
  · cases h

theorem matchComment_length : ∀ {cs r : List Char},
    matchComment cs = some r → r.length < cs.length := by
  intro cs r h
  rw [matchComment] at h
  split at h
  · rename_i hpre
    have h4 : 4 ≤ cs.length := startsCS_length hpre
    have := (dropUntilCS_suffix h).length_le
    have hd : (cs.drop 4).length = cs.length - 4 := by simp
    omega
  · cases h

theorem matchLtTag_suffix : ∀ {cs r : List Char},
    matchLtTag cs = some r → r <:+ cs := by
  intro cs r h
  cases cs with
  | nil => simp [matchLtTag] at h
  | cons c cs2 =>
    rw [matchLtTag] at h
    split at h
    · cases cs2 with
      | nil => simp [gtGap] at h
      | cons c2 cs3 =>
        rw [gtGap] at h
        split at h
        · cases h
        · exact (afterGt_suffix h).trans (List.suffix_cons c _)
    · cases h

theorem matchLtTag_length : ∀ {cs r : List Char},
    matchLtTag cs = some r → r.length < cs.length := by
  intro cs r h
  cases cs with
  | nil => simp [matchLtTag] at h
  | cons c cs2 =>
    rw [matchLtTag] at h
    split at h
    · cases cs2 with
      | nil => simp [gtGap] at h
      | cons c2 cs3 =>
        rw [gtGap] at h
        split at h
        · cases h
        · exact Nat.lt_trans (afterGt_length h) (by simp)
    · cases h

theorem matchNbsp_suffix : ∀ {cs r : List Char},
    matchNbsp cs = some r → r <:+ cs := by
  intro cs r h
  rw [matchNbsp] at h
  split at h
  · cases h; exact List.drop_suffix _ _
  · cases h

theorem matchNbsp_length : ∀ {cs r : List Char},
    matchNbsp cs = some r → r.length < cs.length := by
  intro cs r h
  rw [matchNbsp] at h
  split at h
  · rename_i hpre
    cases h
    have h6 : 6 ≤ cs.length := startsCS_length hpre
    simp only [List.length_drop]
    omega
  · cases h

theorem lastNlSplit_suffix : ∀ {cs r : List Char},
    lastNlSplit cs = some r → r <:+ cs := by
  intro cs
  induction cs with
  | nil => intro r h; simp [lastNlSplit] at h
  | cons c cs ih =>
    intro r h
    rw [lastNlSplit] at h
    split at h
    · cases hin : lastNlSplit cs with
      | some r2 =>
        simp only [hin, Option.some.injEq] at h
        subst h
        exact (ih hin).trans (List.suffix_cons c cs)
      | none =>
        simp only [hin] at h
        by_cases hc : c = '\n'
        · rw [if_pos hc] at h
          simp only [Option.some.injEq] at h
          subst h
          exact List.suffix_cons c cs
        · rw [if_neg hc] at h; cases h
    · cases h

theorem lastNlSplit_length : ∀ {cs r : List Char},
    lastNlSplit cs = some r → r.length < cs.length := by
  intro cs
  induction cs with
  | nil => intro r h; simp [lastNlSplit] at h
  | cons c cs ih =>
    intro r h
    rw [lastNlSplit] at h
    split at h
    · cases hin : lastNlSplit cs with
      | some r2 =>
        simp only [hin, Option.some.injEq] at h
        subst h
        exact Nat.lt_trans (ih hin) (by simp)
      | none =>
        simp only [hin] at h
        by_cases hc : c = '\n'
        · rw [if_pos hc] at h
          simp only [Option.some.injEq] at h
          subst h
          simp
        · rw [if_neg hc] at h; cases h
    · cases h

theorem matchBlankRun_suffix : ∀ {cs r : List Char},
    matchBlankRun cs = some r → r <:+ cs := by
  intro cs r h
  cases cs with
  | nil => simp [matchBlankRun] at h
  | cons c cs2 =>
    rw [matchBlankRun] at h
    split at h
    · exact (lastNlSplit_suffix h).trans (List.suffix_cons c cs2)
    · cases h

theorem matchBlankRun_length : ∀ {cs r : List Char},
    matchBlankRun cs = some r → r.length < cs.length := by
  intro cs r h
  cases cs with
  | nil => simp [matchBlankRun] at h
  | cons c cs2 =>
    rw [matchBlankRun] at h
    split at h
    · exact Nat.lt_trans (lastNlSplit_length h) (by simp)
    · cases h

/-! Generic facts about one global replacement pass. -/

theorem replPass_congr (m : List Char → Option (List Char)) (e : List Char)
    (hm : ∀ cs r, m cs = some r → r.length < cs.length) :
    ∀ (f1 : Nat) (f2 : Nat) (cs : List Char), cs.length ≤ f1 →
      cs.length ≤ f2 → replPass m e f1 cs = replPass m e f2 cs := by
  intro f1
  induction f1 with
  | zero =>
    intro f2 cs h1 _
    have : cs = [] := List.length_eq_zero.mp (Nat.le_zero.mp h1)
    subst this
    cases f2 <;> rfl
  | succ f1 ih =>
    intro f2 cs h1 h2
    cases cs with
    | nil => cases f2 <;> rfl
    | cons c cs =>
      cases f2 with
      | zero => simp at h2
      | succ f2 =>
        rw [replPass, replPass]
        cases hmc : m (c :: cs) with
        | some rest =>
          have hr := hm _ _ hmc
          simp only [List.length_cons] at h1 h2 hr
          have heq : replPass m e f1 rest = replPass m e f2 rest :=
            ih f2 rest (by omega) (by omega)
          show e ++ replPass m e f1 rest = e ++ replPass m e f2 rest
          rw [heq]
        | none =>
          simp only [List.length_cons] at h1 h2
          have heq : replPass m e f1 cs = replPass m e f2 cs :=
            ih f2 cs (by omega) (by omega)
          show c :: replPass m e f1 cs = c :: replPass m e f2 cs
          rw [heq]

theorem replPass_subset (m : List Char → Option (List Char)) (e : List Char)
    (hm : ∀ cs r, m cs = some r → r <:+ cs) :
    ∀ (f : Nat) (cs : List Char) (x : Char),
      x ∈ replPass m e f cs → x ∈ cs ∨ x ∈ e := by
  intro f
  induction f with
  | zero => intro cs x hx; exact Or.inl hx
  | succ f ih =>
    intro cs x hx
    cases cs with
    | nil => simp [replPass] at hx
    | cons c cs =>
      rw [replPass] at hx
      cases hmc : m (c :: cs) with
      | some rest =>
        rw [hmc] at hx
        rcases List.mem_append.mp hx with h | h
        · exact Or.inr h
        · rcases ih rest x h with h2 | h2
          · exact Or.inl ((hm _ _ hmc).subset h2)
          · exact Or.inr h2
      | none =>
        rw [hmc] at hx
        rcases List.mem_cons.mp hx with h | h
        · exact Or.inl (h ▸ List.mem_cons_self c cs)
        · rcases ih cs x h with h2 | h2
          · exact Or.inl (List.mem_cons_of_mem c h2)
          · exact Or.inr h2

theorem runRepl_subset (m : List Char → Option (List Char)) (e : List Char)
    (hm : ∀ cs r, m cs = some r → r <:+ cs) (cs : List Char) (x : Char)
    (hx : x ∈ runRepl m e cs) : x ∈ cs ∨ x ∈ e :=
  replPass_subset m e hm cs.length cs x hx

theorem runRepl_skip (m : List Char → Option (List Char)) (e : List Char)
    (c : Char) (cs : List Char) (h : m (c :: cs) = none) :
    runRepl m e (c :: cs) = c :: runRepl m e cs := by
  show replPass m e (c :: cs).length (c :: cs) = _
  rw [List.length_cons, replPass, h]
  rfl

theorem runRepl_jump (m : List Char → Option (List Char)) (e : List Char)
    (hm : ∀ cs r, m cs = some r → r.length < cs.length)
    (c : Char) (cs rest : List Char) (h : m (c :: cs) = some rest) :
    runRepl m e (c :: cs) = e ++ runRepl m e rest := by
  show replPass m e (c :: cs).length (c :: cs) = _
  rw [List.length_cons, replPass, h]
  show e ++ replPass m e cs.length rest = e ++ runRepl m e rest
  congr 1
  have := hm _ _ h
  simp only [List.length_cons] at this
  exact replPass_congr m e hm cs.length rest.length rest (by omega) (by omega)

theorem runRepl_id (m : List Char → Option (List Char)) (e : List Char) :
    ∀ (cs : List Char),
      (∀ c cs2, (c :: cs2) <:+ cs → m (c :: cs2) = none) →
      runRepl m e cs = cs := by
  intro cs
  induction cs with
  | nil => intro _; rfl
  | cons c cs ih =>
    intro h
    rw [runRepl_skip m e c cs (h c cs (List.suffix_refl _))]
    rw [ih]
    intro c2 cs2 hsuf
    exact h c2 cs2 (hsuf.trans (List.suffix_cons c cs))

/-! Facts about case-insensitive matching used to locate or rule out
block matches. -/

theorem lowerChar_eq_lt {c : Char} (h : lowerChar c = '<') : c = '<' := by
  rw [lowerChar] at h
  by_cases hA : c = 'A'
  · rw [if_pos hA] at h; exact absurd h (by decide)
  rw [if_neg hA] at h
  by_cases hB : c = 'B'
  · rw [if_pos hB] at h; exact absurd h (by decide)
  rw [if_neg hB] at h
  by_cases hC : c = 'C'
  · rw [if_pos hC] at h; exact absurd h (by decide)
  rw [if_neg hC] at h
  by_cases hD : c = 'D'
  · rw [if_pos hD] at h; exact absurd h (by decide)
  rw [if_neg hD] at h
  by_cases hE : c = 'E'
  · rw [if_pos hE] at h; exact absurd h (by decide)
  rw [if_neg hE] at h
  by_cases hF : c = 'F'
  · rw [if_pos hF] at h; exact absurd h (by decide)
  rw [if_neg hF] at h
  by_cases hG : c = 'G'
  · rw [if_pos hG] at h; exact absurd h (by decide)
  rw [if_neg hG] at h
  by_cases hH : c = 'H'
  · rw [if_pos hH] at h; exact absurd h (by decide)
  rw [if_neg hH] at h
  by_cases hI : c = 'I'
  · rw [if_pos hI] at h; exact absurd h (by decide)
  rw [if_neg hI] at h
  by_cases hJ : c = 'J'
  · rw [if_pos hJ] at h; exact absurd h (by decide)
  rw [if_neg hJ] at h
  by_cases hK : c = 'K'
  · rw [if_pos hK] at h; exact absurd h (by decide)
  rw [if_neg hK] at h
  by_cases hL : c = 'L'
  · rw [if_pos hL] at h; exact absurd h (by decide)
  rw [if_neg hL] at h
  by_cases hM : c = 'M'
  · rw [if_pos hM] at h; exact absurd h (by decide)
  rw [if_neg hM] at h
  by_cases hN : c = 'N'
  · rw [if_pos hN] at h; exact absurd h (by decide)
  rw [if_neg hN] at h
  by_cases hO : c = 'O'
  · rw [if_pos hO] at h; exact absurd h (by decide)
  rw [if_neg hO] at h
  by_cases hP : c = 'P'
  · rw [if_pos hP] at h; exact absurd h (by decide)
  rw [if_neg hP] at h
  by_cases hQ : c = 'Q'
  · rw [if_pos hQ] at h; exact absurd h (by decide)
  rw [if_neg hQ] at h
  by_cases hR : c = 'R'
  · rw [if_pos hR] at h; exact absurd h (by decide)
  rw [if_neg hR] at h
  by_cases hS : c = 'S'
  · rw [if_pos hS] at h; exact absurd h (by decide)
  rw [if_neg hS] at h
  by_cases hT : c = 'T'
  · rw [if_pos hT] at h; exact absurd h (by decide)
  rw [if_neg hT] at h
  by_cases hU : c = 'U'
  · rw [if_pos hU] at h; exact absurd h (by decide)
  rw [if_neg hU] at h
  by_cases hV : c = 'V'
  · rw [if_pos hV] at h; exact absurd h (by decide)
  rw [if_neg hV] at h
  by_cases hW : c = 'W'
  · rw [if_pos hW] at h; exact absurd h (by decide)
  rw [if_neg hW] at h
  by_cases hX : c = 'X'
  · rw [if_pos hX] at h; exact absurd h (by decide)
  rw [if_neg hX] at h
  by_cases hY : c = 'Y'
  · rw [if_pos hY] at h; exact absurd h (by decide)
  rw [if_neg hY] at h
  by_cases hZ : c = 'Z'
  · rw [if_pos hZ] at h; exact absurd h (by decide)
  rw [if_neg hZ] at h
  exact h

theorem startsCI_nil (cs : List Char) : startsCI [] cs = true := rfl

theorem startsCI_self_append (p r : List Char)
    (hp : ∀ x ∈ p, lowerChar x = x) : startsCI p (p ++ r) = true := by
  induction p with
  | nil => rfl
  | cons c p ih =>
    rw [List.cons_append, startsCI, Bool.and_eq_true]
    constructor
    · rw [hp c (List.mem_cons_self c p)]
      exact beq_self_eq_true c
    · exact ih fun x hx => hp x (List.mem_cons_of_mem c hx)

theorem startsCI_append_split : ∀ (pat u v : List Char),
    startsCI pat (u ++ v) = true →
    startsCI pat u = true ∨
      (u.length < pat.length ∧ startsCI (pat.drop u.length) v = true) := by
  intro pat u
  induction u generalizing pat with
  | nil =>
    intro v h
    cases pat with
    | nil => exact Or.inl rfl
    | cons p ps => exact Or.inr ⟨by simp, by simpa using h⟩
  | cons c u ih =>
    intro v h
    cases pat with
    | nil => exact Or.inl rfl
    | cons p ps =>
      rw [List.cons_append, startsCI, Bool.and_eq_true] at h
      rcases ih ps v h.2 with h2 | h2
      · exact Or.inl (by rw [startsCI, Bool.and_eq_true]; exact ⟨h.1, h2⟩)
      · refine Or.inr ⟨by simp only [List.length_cons]; omega, ?_⟩
        simpa using h2.2

theorem hasCiSubstr_of_suffix (pat : List Char) :
    ∀ (cs s : List Char), s <:+ cs → startsCI pat s = true →
      hasCiSubstr pat cs = true := by
  intro cs
  induction cs with
  | nil =>
    intro s hs hp
    rw [List.suffix_nil] at hs
    subst hs
    rw [hasCiSubstr]
    exact hp
  | cons c cs ih =>
    intro s hs hp
    rw [hasCiSubstr, Bool.or_eq_true]
    rcases List.suffix_cons_iff.mp hs with h | h
    · subst h; exact Or.inl hp
    · exact Or.inr (ih s h hp)

/-- At a position whose tail reaches into later input through a `'<'`, the
open-tag matcher can only fire if the case-insensitive pattern `<tag`
already starts at this position; the pattern's tag letters are not `'<'`,
so the match cannot straddle the boundary. -/
theorem matchOpenTag_none_at (t : List Char) (ht : ∀ x ∈ t, x ≠ '<')
    (ch : Char) (a2 w : List Char)
    (hfail : startsCI ('<' :: t) (ch :: a2) = false) :
    matchOpenTag t (ch :: (a2 ++ '<' :: w)) = none := by
  rw [matchOpenTag]
  rw [if_neg]
  intro hcond
  rw [Bool.and_eq_true, beq_iff_eq] at hcond
  obtain ⟨hc, hci⟩ := hcond
  subst hc
  rcases startsCI_append_split t a2 ('<' :: w) hci with h | ⟨hlen, hdrop⟩
  · have : startsCI ('<' :: t) ('<' :: a2) = true := by
      rw [startsCI, Bool.and_eq_true]
      exact ⟨by decide, h⟩
    rw [hfail] at this
    cases this
  · cases hd : t.drop a2.length with
    | nil =>
      rw [hd] at hdrop
      have : t.length ≤ a2.length := List.drop_eq_nil_iff.mp hd
      omega
    | cons x rest =>
      rw [hd] at hdrop
      rw [startsCI, Bool.and_eq_true, beq_iff_eq] at hdrop
      have hmem : x ∈ t := by
        have : x ∈ t.drop a2.length := by rw [hd]; exact List.mem_cons_self x rest
        exact List.mem_of_mem_drop this
      exact ht x hmem (hdrop.1.trans (by decide : lowerChar '<' = '<'))

theorem matchBlock_none_at (t : List Char) (ht : ∀ x ∈ t, x ≠ '<')
    (ch : Char) (a2 w : List Char)
    (hfail : startsCI ('<' :: t) (ch :: a2) = false) :
    matchBlock t (ch :: (a2 ++ '<' :: w)) = none := by
  rw [matchBlock, matchOpenTag_none_at t ht ch a2 w hfail]

/-- Scanning for the case-insensitive closing literal runs through a
`'<'`-free body and stops exactly at the literal. -/
theorem dropUntilCi_through (p2 : List Char)
    (hplow : ∀ x ∈ '<' :: p2, lowerChar x = x) :
    ∀ (b c : List Char), (∀ x ∈ b, x ≠ '<') →
      dropUntilCi ('<' :: p2) (b ++ (('<' :: p2) ++ c)) = some c := by
  intro b
  induction b with
  | nil =>
    intro c _
    rw [List.nil_append, List.cons_append, dropUntilCi]
    rw [if_pos]
    · simp [List.drop_left]
    · exact startsCI_self_append ('<' :: p2) c hplow
  | cons x b ih =>
    intro c hb
    have hx : x ≠ '<' := hb x (List.mem_cons_self x b)
    rw [List.cons_append, dropUntilCi, if_neg]
    · exact ih c fun y hy => hb y (List.mem_cons_of_mem x hy)
    · intro hcond
      rw [startsCI, Bool.and_eq_true, beq_iff_eq] at hcond
      exact hx (lowerChar_eq_lt hcond.1.symm)

/-- A pass that strips `<tag ...>...</tag>` blocks is the identity on input
with no case-insensitive occurrence of `<tag`. -/
theorem stripTag_id (t cs : List Char)
    (h : hasCiSubstr ('<' :: t) cs = false) : stripTag t cs = cs := by
  show runRepl (matchBlock t) [] cs = cs
  apply runRepl_id
  intro c cs2 hsuf
  cases hmb : matchBlock t (c :: cs2) with
  | none => rfl
  | some r =>
    exfalso
    rw [matchBlock] at hmb
    cases ho : matchOpenTag t (c :: cs2) with
    | none => rw [ho] at hmb; cases hmb
    | some r1 =>
      obtain ⟨c2, cs3, heq, hc, hci, _⟩ := matchOpenTag_some ho
      injection heq with heq1 heq2
      subst heq1
      subst heq2
      subst hc
      have hstart : startsCI ('<' :: t) ('<' :: cs2) = true := by
        rw [startsCI, Bool.and_eq_true]
        exact ⟨by decide, hci⟩
      have := hasCiSubstr_of_suffix ('<' :: t) cs ('<' :: cs2) hsuf hstart
      rw [h] at this
      cases this

/-- The block-strip pass removes a well-formed block whose body contains no
`'<'`, provided the preceding text contains no case-insensitive `<tag`. -/
theorem stripTag_removal (t : List Char) (ht : ∀ x ∈ t, x ≠ '<')
    (hlow : ∀ x ∈ t, lowerChar x = x) (b c : List Char)
    (hb : ∀ x ∈ b, x ≠ '<') :
    ∀ a : List Char, hasCiSubstr ('<' :: t) a = false →
      stripTag t
          (a ++ '<' :: (t ++ '>' :: (b ++ (('<' :: '/' :: (t ++ ['>'])) ++ c)))) =
        a ++ stripTag t c := by
  have hclose : ∀ x ∈ '<' :: '/' :: (t ++ ['>']), lowerChar x = x := by
    intro x hx
    rcases List.mem_cons.mp hx with h | hx
    · subst h; decide
    rcases List.mem_cons.mp hx with h | hx
    · subst h; decide
    rcases List.mem_append.mp hx with h | h
    · exact hlow x h
    · rw [List.mem_singleton] at h; subst h; decide
  intro a
  induction a with
  | nil =>
    intro _
    rw [List.nil_append, List.nil_append]
    have hopen :
        matchOpenTag t ('<' :: (t ++ '>' :: (b ++ (('<' :: '/' :: (t ++ ['>'])) ++ c)))) =
          some (b ++ (('<' :: '/' :: (t ++ ['>'])) ++ c)) := by
      rw [matchOpenTag, if_pos]
      · rw [List.drop_left, afterGt, if_pos rfl]
      · rw [Bool.and_eq_true]
        exact ⟨by decide, startsCI_self_append t _ hlow⟩
    have hblock :
        matchBlock t ('<' :: (t ++ '>' :: (b ++ (('<' :: '/' :: (t ++ ['>'])) ++ c)))) =
          some c := by
      rw [matchBlock]
      simp only [hopen]
      exact dropUntilCi_through ('/' :: (t ++ ['>'])) hclose b c hb
    show runRepl (matchBlock t) [] _ = _
    rw [runRepl_jump (matchBlock t) [] (fun cs r h => matchBlock_length h) _ _ _ hblock]
    rfl
  | cons ch a2 ih =>
    intro h
    rw [hasCiSubstr] at h
    have hboth := Bool.or_eq_false_iff.mp h
    have hnone :
        matchBlock t
            (ch :: (a2 ++ '<' :: (t ++ '>' :: (b ++ (('<' :: '/' :: (t ++ ['>'])) ++ c))))) =
          none :=
      matchBlock_none_at t ht ch a2 _ hboth.1
    rw [List.cons_append]
    show runRepl (matchBlock t) [] _ = _
    rw [runRepl_skip (matchBlock t) [] _ _ hnone]
    have hstep :
        runRepl (matchBlock t) []
            (a2 ++ '<' :: (t ++ '>' :: (b ++ (('<' :: '/' :: (t ++ ['>'])) ++ c)))) =
          a2 ++ stripTag t c := ih hboth.2
    rw [hstep]
    rfl

/-! Locating the title match. -/

theorem findTitle_skip (w : List Char) :
    ∀ p : List Char, hasCiSubstr ('<' :: titleWord) p = false →
      findTitle (p ++ '<' :: w) = findTitle ('<' :: w) := by
  intro p
  induction p with
  | nil => intro _; rw [List.nil_append]
  | cons ch p2 ih =>
    intro h
    rw [hasCiSubstr] at h
    have hboth := Bool.or_eq_false_iff.mp h
    have hto : ∀ x ∈ titleWord, x ≠ '<' := by decide
    have hnone : matchTitleAt (ch :: (p2 ++ '<' :: w)) = none := by
      rw [matchTitleAt, matchOpenTag_none_at titleWord hto ch p2 w hboth.1]
    rw [List.cons_append, findTitle, hnone]
    exact ih hboth.2

theorem takeWhile_ne_lt : ∀ (x w : List Char), (∀ y ∈ x, y ≠ '<') →
    (x ++ '<' :: w).takeWhile (fun c => c != '<') = x ∧
      (x ++ '<' :: w).dropWhile (fun c => c != '<') = '<' :: w := by
  intro x
  induction x with
  | nil => intro w _; constructor <;> simp [List.takeWhile, List.dropWhile]
  | cons y x2 ih =>
    intro w hx
    have hy : y ≠ '<' := hx y (List.mem_cons_self y x2)
    have hyb : (y != '<') = true := by simpa using hy
    obtain ⟨h1, h2⟩ := ih w fun z hz => hx z (List.mem_cons_of_mem y hz)
    constructor
    · rw [List.cons_append, List.takeWhile_cons, hyb, if_pos rfl, h1]
    · rw [List.cons_append, List.dropWhile_cons, hyb, if_pos rfl, h2]

theorem matchTitleAt_junction (x s : List Char) (hx : x ≠ [])
    (hx2 : ∀ y ∈ x, y ≠ '<') :
    matchTitleAt
        ('<' :: (titleWord ++ '>' :: (x ++ (('<' :: '/' :: (titleWord ++ ['>'])) ++ s)))) =
      some x := by
  have hlow : ∀ y ∈ titleWord, lowerChar y = y := by decide
  have hopen :
      matchOpenTag titleWord
          ('<' :: (titleWord ++ '>' :: (x ++ (('<' :: '/' :: (titleWord ++ ['>'])) ++ s)))) =
        some (x ++ (('<' :: '/' :: (titleWord ++ ['>'])) ++ s)) := by
    rw [matchOpenTag, if_pos]
    · rw [List.drop_left, afterGt, if_pos rfl]
    · rw [Bool.and_eq_true]
      exact ⟨by decide, startsCI_self_append titleWord _ hlow⟩
  rw [matchTitleAt]
  simp only [hopen]
  have hshape :
      x ++ (('<' :: '/' :: (titleWord ++ ['>'])) ++ s) =
        x ++ '<' :: (('/' :: (titleWord ++ ['>'])) ++ s) := by
    rw [List.cons_append]
  rw [hshape]
  have hsplit := takeWhile_ne_lt x (('/' :: (titleWord ++ ['>'])) ++ s) hx2
  have hcond :
      startsCI (closeTag titleWord) ('<' :: (('/' :: (titleWord ++ ['>'])) ++ s)) = true := by
    have hsh : ('<' :: (('/' :: (titleWord ++ ['>'])) ++ s)) = closeTag titleWord ++ s := rfl
    rw [hsh]
    exact startsCI_self_append (closeTag titleWord) s (by decide)
  simp only [hsplit.1, hsplit.2]
  rw [if_neg hx, if_pos hcond]

theorem findTitle_none : ∀ cs : List Char,
    hasCiSubstr ('<' :: titleWord) cs = false → findTitle cs = none := by
  intro cs
  induction cs with
  | nil => intro _; rfl
  | cons c cs2 ih =>
    intro h
    rw [hasCiSubstr] at h
    have hboth := Bool.or_eq_false_iff.mp h
    have hnone : matchTitleAt (c :: cs2) = none := by
      cases hmt : matchTitleAt (c :: cs2) with
      | none => rfl
      | some g =>
        exfalso
        rw [matchTitleAt] at hmt
        cases ho : matchOpenTag titleWord (c :: cs2) with
        | none => rw [ho] at hmt; cases hmt
        | some r =>
          obtain ⟨c2, cs3, heq, hc, hci, _⟩ := matchOpenTag_some ho
          injection heq with heq1 heq2
          subst heq1
          subst heq2
          subst hc
          have : startsCI ('<' :: titleWord) ('<' :: cs2) = true := by
            rw [startsCI, Bool.and_eq_true]
            exact ⟨by decide, hci⟩
          rw [hboth.1] at this
          cases this
    rw [findTitle, hnone]
    exact ih hboth.2

/-! Character provenance: every character of the extracted text either comes
from the input (indeed from the input after the script and style passes) or
is a `'\n'` or `' '` introduced by a replacement. -/

theorem strip_subset {t cs : List Char} {x : Char} (h : x ∈ stripTag t cs) :
    x ∈ cs := by
  rcases runRepl_subset (matchBlock t) [] (fun _ _ hr => matchBlock_suffix hr) cs x h with
    h2 | h2
  · exact h2
  · cases h2

theorem stripComments_subset {cs : List Char} {x : Char}
    (h : x ∈ stripComments cs) : x ∈ cs := by
  rcases runRepl_subset matchComment [] (fun _ _ hr => matchComment_suffix hr) cs x h with
    h2 | h2
  · exact h2
  · cases h2

theorem collapseTags_mem {cs : List Char} {x : Char} (h : x ∈ collapseTags cs) :
    x ∈ cs ∨ x = '\n' := by
  rcases runRepl_subset matchLtTag ['\n'] (fun _ _ hr => matchLtTag_suffix hr) cs x h with
    h2 | h2
  · exact Or.inl h2
  · right; simpa using h2

theorem nbspToSpace_mem {cs : List Char} {x : Char} (h : x ∈ nbspToSpace cs) :
    x ∈ cs ∨ x = ' ' := by
  rcases runRepl_subset matchNbsp [' '] (fun _ _ hr => matchNbsp_suffix hr) cs x h with
    h2 | h2
  · exact Or.inl h2
  · right; simpa using h2

theorem squeezeBlank_mem {cs : List Char} {x : Char} (h : x ∈ squeezeBlank cs) :
    x ∈ cs ∨ x = '\n' := by
  rcases runRepl_subset matchBlankRun ['\n'] (fun _ _ hr => matchBlankRun_suffix hr) cs x h
    with h2 | h2
  · exact Or.inl h2
  · right; simpa using h2

theorem trimChars_subset {cs : List Char} {x : Char} (h : x ∈ trimChars cs) :
    x ∈ cs := by
  rw [trimChars, List.mem_reverse] at h
  have h2 := (List.dropWhile_sublist isSpaceB).subset h
  rw [List.mem_reverse] at h2
  exact (List.dropWhile_sublist isSpaceB).subset h2

theorem tabMap_mem {cs : List Char} {x : Char}
    (h : x ∈ cs.map fun c => if c = '\t' then ' ' else c) : x ∈ cs ∨ x = ' ' := by
  obtain ⟨y, hy, hyx⟩ := List.mem_map.mp h
  by_cases ht : y = '\t'
  · right; rw [← hyx, if_pos ht]
  · left; rw [← hyx, if_neg ht]; exact hy

theorem extractContent_text (html : String) :
    (extractContent html).text = String.mk ((trimChars (squeezeBlank (nbspToSpace
      ((collapseTags (removeBlocks html.data)).map
        fun c => if c = '\t' then ' ' else c)))).take 5000) := rfl

theorem mk_data (l : List Char) : (String.mk l).data = l := rfl

theorem text_chars_after_style (html : String) (x : Char)
    (h : x ∈ (extractContent html).text.data) :
    x ∈ stripTag ['s', 't', 'y', 'l', 'e']
        (stripTag ['s', 'c', 'r', 'i', 'p', 't'] html.data) ∨
      x = '\n' ∨ x = ' ' := by
  rw [extractContent_text, mk_data] at h
  have h1 := trimChars_subset (List.mem_of_mem_take h)
  rcases squeezeBlank_mem h1 with h2 | h2
  · rcases nbspToSpace_mem h2 with h3 | h3
    · rcases tabMap_mem h3 with h4 | h4
      · rcases collapseTags_mem h4 with h5 | h5
        · left
          rw [removeBlocks] at h5
          exact stripComments_subset
            (strip_subset (strip_subset (strip_subset (strip_subset (strip_subset h5)))))
        · exact Or.inr (Or.inl h5)
      · exact Or.inr (Or.inr h4)
    · exact Or.inr (Or.inr h3)
  · exact Or.inr (Or.inl h2)

/-! Facts about the queue store. -/

theorem findPendingIn_put : ∀ (s : Store) (n : Nat) (doc : List PendingItem),
    s.length < n →
    findPendingIn n (putPending s doc) = some ⟨"pending.json", some doc⟩ := by
  intro s
  induction s with
  | nil =>
    intro n doc hn
    cases n with
    | zero => simp at hn
    | succ m => simp [putPending, findPendingIn]
  | cons b bs ih =>
    intro n doc hn
    cases n with
    | zero => simp at hn
    | succ m =>
      rw [putPending]
      by_cases hb : b.pathname = "pending.json"
      · rw [if_pos hb, findPendingIn, if_pos rfl]
      · rw [if_neg hb, findPendingIn, if_neg hb]
        refine ih m doc ?_
        simp only [List.length_cons] at hn
        omega

theorem readPending_put (s : Store) (doc : List PendingItem)
    (h : s.length < 100) : readPending (putPending s doc) = doc := by
  rw [readPending, findPendingIn_put s 100 doc h]
  rfl

theorem putPending_length : ∀ (s : Store) (doc : List PendingItem),
    (putPending s doc).length ≤ s.length + 1 := by
  intro s
  induction s with
  | nil => intro doc; simp [putPending]
  | cons b bs ih =>
    intro doc
    rw [putPending]
    by_cases hb : b.pathname = "pending.json"
    · rw [if_pos hb]; simp
    · rw [if_neg hb]
      simp only [List.length_cons]
      have := ih doc
      omega

theorem findPendingIn_none_of_skip : ∀ (n : Nat) (s1 rest : Store),
    n ≤ s1.length → (∀ b ∈ s1, b.pathname ≠ "pending.json") →
    findPendingIn n (s1 ++ rest) = none := by
  intro n
  induction n with
  | zero =>
    intro s1 rest _ _
    cases s1 ++ rest with
    | nil => rfl
    | cons b bs => rfl
  | succ m ih =>
    intro s1 rest hn hb
    cases s1 with
    | nil => simp at hn
    | cons b bs =>
      rw [List.cons_append, findPendingIn, if_neg (hb b (List.mem_cons_self b bs))]
      refine ih bs rest ?_ fun b2 h2 => hb b2 (List.mem_cons_of_mem b h2)
      simp only [List.length_cons] at hn
      omega

theorem putPending_skip : ∀ (s1 : Store),
    (∀ b ∈ s1, b.pathname ≠ "pending.json") →
    ∀ (L : List PendingItem) (s2 : Store) (doc : List PendingItem),
    putPending (s1 ++ ⟨"pending.json", some L⟩ :: s2) doc =
      s1 ++ ⟨"pending.json", some doc⟩ :: s2 := by
  intro s1
  induction s1 with
  | nil =>
    intro _ L s2 doc
    rw [List.nil_append, putPending, if_pos rfl, List.nil_append]
  | cons b bs ih =>
    intro hb L s2 doc
    rw [List.cons_append, putPending, if_neg (hb b (List.mem_cons_self b bs)),
      ih (fun x hx => hb x (List.mem_cons_of_mem b hx)) L s2 doc, List.cons_append]

/-- The success path of the ingestion handler, fully evaluated. -/
theorem handler_ok (u newId today host html : String) (s : Store) (hu : u ≠ "")
    (hlen : ¬ (extractContent html).text.length < 50) :
    handler true "POST" u (.ok html) newId today host s =
      ⟨200, none,
        putPending s (⟨newId, u, (extractContent html).title, (extractContent html).text,
          today, host⟩ :: readPending s),
        some (⟨newId, u, (extractContent html).title, (extractContent html).text,
          today, host⟩ :: readPending s),
        [StoreOp.read, StoreOp.write],
        some ⟨newId, u, (extractContent html).title, (extractContent html).text,
          today, host⟩⟩ := by
  simp [handler, hu, hlen]

/-- A generated image URL is never the empty string. -/
theorem generateImageUrl_ne (enc : String → String) (seed : Nat)
    (prompt : String) : generateImageUrl enc seed prompt ≠ "" := by
  intro h
  have hlen := congrArg String.length h
  rw [generateImageUrl] at hlen
  simp only [String.length_append] at hlen
  have h37 : ("https://image.pollinations.ai/prompt/" : String).length = 37 := by decide
  rw [h37] at hlen
  simp at hlen

/-- The title computation of `extractContent`, as an equation. -/
theorem extractContent_title (html : String) :
    (extractContent html).title =
      match findTitle html.data with
      | some g => String.mk (trimChars g)
      | none => "无标题" := rfl

/-- Claim C1: when two append operations both read the same initial queue
document state L and then both write, the final stored queue document is the
second writer's item prepended to L only; the first writer's item is absent
whenever it was not already in L and differs from the second item (last
overwrite wins, no compare-and-swap). -/
theorem race_lastWriteWins (s : Store) (i1 i2 : PendingItem)
    (hlen : s.length ≤ 98) :
    readPending (raceAppend s i1 i2) = i2 :: readPending s ∧
    (i1 ∉ readPending s → i1 ≠ i2 → i1 ∉ readPending (raceAppend s i1 i2)) := by
  have h1 : (putPending s (i1 :: readPending s)).length < 100 := by
    have := putPending_length s (i1 :: readPending s)
    omega
  have hmain : readPending (raceAppend s i1 i2) = i2 :: readPending s := by
    show readPending
        (putPending (putPending s (i1 :: readPending s)) (i2 :: readPending s)) = _
    exact readPending_put _ _ h1
  refine ⟨hmain, ?_⟩
  intro hnotin hne hcontra
  rw [hmain] at hcontra
  rcases List.mem_cons.mp hcontra with h | h
  · exact hne h
  · exact hnotin h

theorem race_lastWriteWins_w :
    readPending (raceAppend []
        (⟨"a", "ua", "ta", "xa", "da", "sa"⟩ : PendingItem)
        (⟨"b", "ub", "tb", "xb", "db", "sb"⟩ : PendingItem)) =
      [⟨"b", "ub", "tb", "xb", "db", "sb"⟩] ∧
    (⟨"a", "ua", "ta", "xa", "da", "sa"⟩ : PendingItem) ∉
      readPending (raceAppend []
        (⟨"a", "ua", "ta", "xa", "da", "sa"⟩ : PendingItem)
        (⟨"b", "ub", "tb", "xb", "db", "sb"⟩ : PendingItem)) := by
  have h := race_lastWriteWins [] ⟨"a", "ua", "ta", "xa", "da", "sa"⟩
    ⟨"b", "ub", "tb", "xb", "db", "sb"⟩ (by decide)
  exact ⟨h.1, h.2 (by decide) (by decide)⟩

/-- Claim C2: from an empty queue document, two sequential successful
ingestions of URL A then URL B leave the stored queue equal to
[item-for-B, item-for-A]; in general every successful append writes the new
item prepended to the list obtained by its read (most-recent-first). -/
theorem sequential_appends :
    (∀ uA uB idA idB dA dB hoA hoB htmlA htmlB : String, uA ≠ "" → uB ≠ "" →
      ¬ (extractContent htmlA).text.length < 50 →
      ¬ (extractContent htmlB).text.length < 50 →
      (handler true "POST" uA (.ok htmlA) idA dA hoA []).status = 200 ∧
      (handler true "POST" uB (.ok htmlB) idB dB hoB
          (handler true "POST" uA (.ok htmlA) idA dA hoA []).store).status = 200 ∧
      readPending (handler true "POST" uB (.ok htmlB) idB dB hoB
          (handler true "POST" uA (.ok htmlA) idA dA hoA []).store).store =
        [⟨idB, uB, (extractContent htmlB).title, (extractContent htmlB).text, dB, hoB⟩,
         ⟨idA, uA, (extractContent htmlA).title, (extractContent htmlA).text, dA, hoA⟩]) ∧
    (∀ (s : Store) (u nid d ho html : String), u ≠ "" →
      ¬ (extractContent html).text.length < 50 →
      (handler true "POST" u (.ok html) nid d ho s).written =
        some (⟨nid, u, (extractContent html).title, (extractContent html).text, d, ho⟩ ::
          readPending s)) := by
  constructor
  · intro uA uB idA idB dA dB hoA hoB htmlA htmlB huA huB hlA hlB
    have e1 := handler_ok uA idA dA hoA htmlA [] huA hlA
    have hS : (handler true "POST" uA (.ok htmlA) idA dA hoA []).store =
        putPending []
          [⟨idA, uA, (extractContent htmlA).title, (extractContent htmlA).text, dA, hoA⟩] :=
      congrArg HandlerResult.store e1
    have e2 := handler_ok uB idB dB hoB htmlB
      (putPending []
        [⟨idA, uA, (extractContent htmlA).title, (extractContent htmlA).text, dA, hoA⟩])
      huB hlB
    have hr1 : readPending (putPending []
        [⟨idA, uA, (extractContent htmlA).title, (extractContent htmlA).text, dA, hoA⟩]) =
        [⟨idA, uA, (extractContent htmlA).title, (extractContent htmlA).text, dA, hoA⟩] :=
      readPending_put _ _ (by simp)
    refine ⟨by rw [e1], by rw [hS, e2], ?_⟩
    have hlen1 : (putPending ([] : Store)
        [⟨idA, uA, (extractContent htmlA).title, (extractContent htmlA).text,
          dA, hoA⟩]).length < 100 := by
      simp [putPending]
    simp only [hS, e2, hr1]
    exact readPending_put _ _ hlen1
  · intro s u nid d ho html hu hl
    rw [handler_ok u nid d ho html s hu hl]

theorem sequential_appends_w :
    readPending (handler true "POST" "http://b" (.ok
        "bbbbbbbbbbbbbbbbbbbbbbbbbbbbbbbbbbbbbbbbbbbbbbbbbbbbbbbbbbbb") "idB" "dB" "hB"
        (handler true "POST" "http://a" (.ok
          "aaaaaaaaaaaaaaaaaaaaaaaaaaaaaaaaaaaaaaaaaaaaaaaaaaaaaaaaaaaa") "idA" "dA" "hA"
          []).store).store =
      [⟨"idB", "http://b",
        (extractContent "bbbbbbbbbbbbbbbbbbbbbbbbbbbbbbbbbbbbbbbbbbbbbbbbbbbbbbbbbbbb").title,
        (extractContent "bbbbbbbbbbbbbbbbbbbbbbbbbbbbbbbbbbbbbbbbbbbbbbbbbbbbbbbbbbbb").text,
        "dB", "hB"⟩,
       ⟨"idA", "http://a",
        (extractContent "aaaaaaaaaaaaaaaaaaaaaaaaaaaaaaaaaaaaaaaaaaaaaaaaaaaaaaaaaaaa").title,
        (extractContent "aaaaaaaaaaaaaaaaaaaaaaaaaaaaaaaaaaaaaaaaaaaaaaaaaaaaaaaaaaaa").text,
        "dA", "hA"⟩] :=
  (sequential_appends.1 "http://a" "http://b" "idA" "idB" "dA" "dB" "hA" "hB"
    "aaaaaaaaaaaaaaaaaaaaaaaaaaaaaaaaaaaaaaaaaaaaaaaaaaaaaaaaaaaa"
    "bbbbbbbbbbbbbbbbbbbbbbbbbbbbbbbbbbbbbbbbbbbbbbbbbbbbbbbbbbbb"
    (by decide) (by decide) (by decide) (by decide)).2.2

/-- Claim C3: when the extracted text of the fetched page has fewer than 50
characters, the ingestion request returns status 500 with the
"no usable content" error message (未能提取到有效内容...) and the queue
document is neither read, modified, nor overwritten: the store is unchanged,
no store operation runs, and nothing is written. -/
theorem shortText_no_write (u nid d ho html : String) (s : Store) (hu : u ≠ "")
    (hshort : (extractContent html).text.length < 50) :
    handler true "POST" u (.ok html) nid d ho s =
      ⟨500, some "未能提取到有效内容 (可能内容过短或为纯动态渲染)", s, none, [], none⟩ := by
  simp [handler, hu, hshort]

theorem shortText_no_write_w :
    handler true "POST" "http://x" (.ok "") "i" "d" "h" [] =
      ⟨500, some "未能提取到有效内容 (可能内容过短或为纯动态渲染)", [], none, [], none⟩ :=
  shortText_no_write "http://x" "i" "d" "h" "" [] (by decide) (by decide)

/-- Claim C4: an Analyzer response whose `type` is not one of the closed
enumeration values is coerced to `other` before the record is constructed
(spec-modelled coercion of the missing `src/services/qwenService`, passed
through unchanged by `handleAiAnalyze`). -/
theorem unknownType_coerced (enc : String → String) (seed : Nat) (img : String)
    (raw : QwenRaw)
    (h : raw.rtype ∉ ["launch", "policy", "sales", "personnel", "competitor", "other"]) :
    (handleAiAnalyze enc seed img raw).type = NewsType.other := by
  simp only [List.mem_cons, List.not_mem_nil, or_false, not_or] at h
  obtain ⟨h1, h2, h3, h4, h5, h6⟩ := h
  show coerceType raw.rtype = NewsType.other
  rw [coerceType, if_neg h1, if_neg h2, if_neg h3, if_neg h4, if_neg h5]

theorem unknownType_coerced_w :
    (handleAiAnalyze id 0 ""
        ⟨"t", "s", "BYD", "weird", "2025-01-01", "", ""⟩).type = NewsType.other :=
  unknownType_coerced id 0 "" ⟨"t", "s", "BYD", "weird", "2025-01-01", "", ""⟩ (by decide)

/-- Claim C5: every record created by the manual path or the AI path has a
non-empty `image`; when the supplied image URL trims to empty, the image is
the generated URL built from brand+title (manual) or from the Analyzer's
image keywords with the "brand car news" fallback (AI). -/
theorem image_always_nonempty (enc : String → String) (seed : Nat)
    (form : ManualForm) (img : String) (raw : QwenRaw) :
    ((handleManualSubmit enc seed form).image ≠ "" ∧
      (jsTrim form.image = "" →
        (handleManualSubmit enc seed form).image =
          generateImageUrl enc seed (form.brand ++ " " ++ form.title ++ " automotive"))) ∧
    ((handleAiAnalyze enc seed img raw).image ≠ "" ∧
      (jsTrim img = "" →
        (handleAiAnalyze enc seed img raw).image =
          generateImageUrl enc seed
            (if raw.image_keywords ≠ "" then raw.image_keywords
             else raw.brand ++ " car news"))) := by
  constructor
  · by_cases h : jsTrim form.image = ""
    · constructor
      · show (if jsTrim form.image ≠ "" then jsTrim form.image
            else generateImageUrl enc seed
              (form.brand ++ " " ++ form.title ++ " automotive")) ≠ ""
        rw [if_neg (not_not_intro h)]
        exact generateImageUrl_ne enc seed _
      · intro _
        show (if jsTrim form.image ≠ "" then jsTrim form.image
            else generateImageUrl enc seed
              (form.brand ++ " " ++ form.title ++ " automotive")) = _
        rw [if_neg (not_not_intro h)]
    · constructor
      · show (if jsTrim form.image ≠ "" then jsTrim form.image
            else generateImageUrl enc seed
              (form.brand ++ " " ++ form.title ++ " automotive")) ≠ ""
        rw [if_pos h]
        exact h
      · intro hc
        exact absurd hc h
  · by_cases h : jsTrim img = ""
    · constructor
      · show (if jsTrim img ≠ "" then jsTrim img
            else generateImageUrl enc seed
              (if raw.image_keywords ≠ "" then raw.image_keywords
               else raw.brand ++ " car news")) ≠ ""
        rw [if_neg (not_not_intro h)]
        exact generateImageUrl_ne enc seed _
      · intro _
        show (if jsTrim img ≠ "" then jsTrim img
            else generateImageUrl enc seed
              (if raw.image_keywords ≠ "" then raw.image_keywords
               else raw.brand ++ " car news")) = _
        rw [if_neg (not_not_intro h)]
    · constructor
      · show (if jsTrim img ≠ "" then jsTrim img
            else generateImageUrl enc seed
              (if raw.image_keywords ≠ "" then raw.image_keywords
               else raw.brand ++ " car news")) ≠ ""
        rw [if_pos h]
        exact h
      · intro hc
        exact absurd hc h

theorem image_always_nonempty_w :
    (handleManualSubmit id 0
        ⟨"T", "S", "BYD", NewsType.other, "2025-01-01", "", "人工录入", ""⟩).image =
      generateImageUrl id 0 ("BYD" ++ " " ++ "T" ++ " automotive") ∧
    (handleAiAnalyze id 0 " "
        ⟨"t", "s", "MG", "launch", "2025-01-01", "", ""⟩).image ≠ "" :=
  ⟨(image_always_nonempty id 0
      ⟨"T", "S", "BYD", NewsType.other, "2025-01-01", "", "人工录入", ""⟩ " "
      ⟨"t", "s", "MG", "launch", "2025-01-01", "", ""⟩).1.2 (by decide),
   (image_always_nonempty id 0
      ⟨"T", "S", "BYD", NewsType.other, "2025-01-01", "", "人工录入", ""⟩ " "
      ⟨"t", "s", "MG", "launch", "2025-01-01", "", ""⟩).2.1⟩

/-- Claim C6 (counterexample): the input `<titlex>junk</title>` contains no
`<title>` open tag (case-insensitively), hence no `<title>X</title>` pair,
yet `extractContent` returns the title `junk` instead of the `无标题`
placeholder: the open-tag pattern tolerates arbitrary junk before `>`. -/
theorem title_claim_cex :
    hasCiSubstr ('<' :: (titleWord ++ ['>'])) "<titlex>junk</title>".data = false ∧
    (extractContent "<titlex>junk</title>").title = "junk" := by
  constructor
  · decide
  · decide

/-- Claim C6 (amended): `extract` returns, trimmed, the capture of the first
case-insensitive match of `<title[^>]*>([^<]+)</title>`: for every input
`p ++ "<title>" ++ x ++ "</title>" ++ s` where `p` has no case-insensitive
occurrence of `<title` and `x` is nonempty without `'<'`, the title is `x`
trimmed; and for every input with no case-insensitive occurrence of
`<title`, the fixed placeholder `无标题` is returned. -/
theorem title_first_match :
    (∀ p x s : String, hasCiSubstr ('<' :: titleWord) p.data = false →
      x.data ≠ [] → (∀ y ∈ x.data, y ≠ '<') →
      (extractContent (p ++ "<title>" ++ x ++ "</title>" ++ s)).title = jsTrim x) ∧
    (∀ html : String, hasCiSubstr ('<' :: titleWord) html.data = false →
      (extractContent html).title = "无标题") := by
  constructor
  · intro p x s hp hx hx2
    have hdata : (p ++ "<title>" ++ x ++ "</title>" ++ s).data =
        p.data ++ '<' :: (titleWord ++ '>' ::
          (x.data ++ (('<' :: '/' :: (titleWord ++ ['>'])) ++ s.data))) := by
      simp only [String.data_append, List.append_assoc]
      rfl
    rw [extractContent_title, hdata, findTitle_skip _ p.data hp, findTitle]
    simp only [matchTitleAt_junction x.data s.data hx hx2]
    rfl
  · intro html hno
    rw [extractContent_title, findTitle_none html.data hno]

theorem title_first_match_w :
    (extractContent ("<p>a</p>" ++ "<title>" ++ " Hi " ++ "</title>" ++ "<p>b</p>")).title =
      jsTrim " Hi " ∧
    (extractContent "plain text with no tags").title = "无标题" :=
  ⟨title_first_match.1 "<p>a</p>" " Hi " "<p>b</p>" (by decide) (by decide) (by decide),
   title_first_match.2 "plain text with no tags" (by decide)⟩

/-- Claim C7 (counterexample): in
`<style>aaa<script>bbb</style>ccc</script>` the span
`<style>aaa<script>bbb</style>` is a style block (open tag to the nearest
close tag), yet the token `aaa` from inside it is the entire extracted text:
the script pass runs first and consumes the style close tag. -/
theorem strip_claim_cex :
    ("<style>aaa<script>bbb</style>ccc</script>" : String) =
      "<style>" ++ "aaa<script>bbb" ++ "</style>" ++ "ccc</script>" ∧
    (extractContent "<style>aaa<script>bbb</style>ccc</script>").text = "aaa" := by
  constructor
  · rfl
  · decide

/-- Claim C7 (amended): characters occurring only inside a
`<script>...</script>` or `<style>...</style>` block are absent from the
extracted text, provided the block bodies contain no `'<'` and, before the
block, no case-insensitive `<script` (resp. no `<script` anywhere and no
`<style` before the block) occurs — without these side conditions an
earlier pass can consume another block's close tag and leak its content. -/
theorem strip_blocks_amended :
    (∀ a b c : String,
      hasCiSubstr ('<' :: ['s', 'c', 'r', 'i', 'p', 't']) a.data = false →
      (∀ y ∈ b.data, y ≠ '<') →
      ∀ x ∈ b.data, x ∉ a.data → x ∉ c.data → x ≠ '\n' → x ≠ ' ' →
        x ∉ (extractContent (a ++ "<script>" ++ b ++ "</script>" ++ c)).text.data) ∧
    (∀ a b c : String,
      hasCiSubstr ('<' :: ['s', 'c', 'r', 'i', 'p', 't'])
        (a ++ "<style>" ++ b ++ "</style>" ++ c).data = false →
      hasCiSubstr ('<' :: ['s', 't', 'y', 'l', 'e']) a.data = false →
      (∀ y ∈ b.data, y ≠ '<') →
      ∀ x ∈ b.data, x ∉ a.data → x ∉ c.data → x ≠ '\n' → x ≠ ' ' →
        x ∉ (extractContent (a ++ "<style>" ++ b ++ "</style>" ++ c)).text.data) := by
  constructor
  · intro a b c ha hb x hxb hxa hxc hxn hxs hmem
    rcases text_chars_after_style _ x hmem with h | h | h
    · have hH : (a ++ "<script>" ++ b ++ "</script>" ++ c).data =
          a.data ++ '<' :: (['s', 'c', 'r', 'i', 'p', 't'] ++ '>' ::
            (b.data ++ (('<' :: '/' :: (['s', 'c', 'r', 'i', 'p', 't'] ++ ['>'])) ++
              c.data))) := by
        simp only [String.data_append, List.append_assoc]
        rfl
      rw [hH, stripTag_removal ['s', 'c', 'r', 'i', 'p', 't'] (by decide) (by decide)
        b.data c.data hb a.data ha] at h
      rcases List.mem_append.mp (strip_subset h) with h3 | h3
      · exact hxa h3
      · exact hxc (strip_subset h3)
    · exact hxn h
    · exact hxs h
  · intro a b c hscript ha hb x hxb hxa hxc hxn hxs hmem
    rcases text_chars_after_style _ x hmem with h | h | h
    · have hH : (a ++ "<style>" ++ b ++ "</style>" ++ c).data =
          a.data ++ '<' :: (['s', 't', 'y', 'l', 'e'] ++ '>' ::
            (b.data ++ (('<' :: '/' :: (['s', 't', 'y', 'l', 'e'] ++ ['>'])) ++
              c.data))) := by
        simp only [String.data_append, List.append_assoc]
        rfl
      rw [stripTag_id ['s', 'c', 'r', 'i', 'p', 't'] _ hscript, hH,
        stripTag_removal ['s', 't', 'y', 'l', 'e'] (by decide) (by decide)
          b.data c.data hb a.data ha] at h
      rcases List.mem_append.mp h with h3 | h3
      · exact hxa h3
      · exact hxc (strip_subset h3)
    · exact hxn h
    · exact hxs h

theorem strip_blocks_amended_w :
    'q' ∉ (extractContent
        ("<p>intro</p>" ++ "<script>" ++ "qqq" ++ "</script>" ++ "<p>end</p>")).text.data ∧
    'w' ∉ (extractContent
        ("<p>intro</p>" ++ "<style>" ++ "www" ++ "</style>" ++ "<p>end</p>")).text.data :=
  ⟨strip_blocks_amended.1 "<p>intro</p>" "qqq" "<p>end</p>" (by decide) (by decide)
      'q' (by decide) (by decide) (by decide) (by decide) (by decide),
   strip_blocks_amended.2 "<p>intro</p>" "www" "<p>end</p>" (by decide) (by decide)
      (by decide) 'w' (by decide) (by decide) (by decide) (by decide) (by decide)⟩

/-- Claim C8: the queue read never errors the caller: when the queue
document is not found among the listed blobs, or when fetching/parsing it
fails (content `none`), the read yields the empty sequence and a subsequent
successful ingestion proceeds treating the queue as empty, writing a
one-item document. -/
theorem readPending_fail_open (s : Store)
    (h : findPendingIn 100 s = none ∨
      ∃ b, findPendingIn 100 s = some b ∧ b.content = none) :
    readPending s = [] ∧
    ∀ (u nid d ho html : String), u ≠ "" →
      ¬ (extractContent html).text.length < 50 →
      (handler true "POST" u (.ok html) nid d ho s).status = 200 ∧
      (handler true "POST" u (.ok html) nid d ho s).written =
        some [⟨nid, u, (extractContent html).title, (extractContent html).text, d, ho⟩] := by
  have hr : readPending s = [] := by
    rcases h with h | ⟨b, hb, hc⟩
    · rw [readPending, h]
    · rw [readPending]
      simp only [hb, hc]
      rfl
  refine ⟨hr, ?_⟩
  intro u nid d ho html hu hl
  simp [handler_ok u nid d ho html s hu hl, hr]

theorem readPending_fail_open_w :
    readPending [(⟨"pending.json", none⟩ : Blob)] = [] ∧
    (handler true "POST" "http://x" (.ok
        "aaaaaaaaaaaaaaaaaaaaaaaaaaaaaaaaaaaaaaaaaaaaaaaaaaaaaaaaaaaa") "i" "d" "h"
        [⟨"pending.json", none⟩]).status = 200 ∧
    (handler true "POST" "http://x" (.ok
        "aaaaaaaaaaaaaaaaaaaaaaaaaaaaaaaaaaaaaaaaaaaaaaaaaaaaaaaaaaaa") "i" "d" "h"
        [⟨"pending.json", none⟩]).written =
      some [⟨"i", "http://x",
        (extractContent "aaaaaaaaaaaaaaaaaaaaaaaaaaaaaaaaaaaaaaaaaaaaaaaaaaaaaaaaaaaa").title,
        (extractContent "aaaaaaaaaaaaaaaaaaaaaaaaaaaaaaaaaaaaaaaaaaaaaaaaaaaaaaaaaaaa").text,
        "d", "h"⟩] := by
  have h := readPending_fail_open [⟨"pending.json", none⟩]
    (Or.inr ⟨⟨"pending.json", none⟩, by decide, rfl⟩)
  exact ⟨h.1, h.2 "http://x" "i" "d" "h"
    "aaaaaaaaaaaaaaaaaaaaaaaaaaaaaaaaaaaaaaaaaaaaaaaaaaaaaaaaaaaa"
    (by decide) (by decide)⟩

/-- Claim C9 (counterexample): the handler performs no uniqueness check on
the random id of line 93; when the generated id collides with an id already
in the queue, the written document has duplicate `id`s, so appending does
not always preserve id-uniqueness. -/
theorem appendId_cex :
    ¬ (((handler true "POST" "http://x" (.ok
        "aaaaaaaaaaaaaaaaaaaaaaaaaaaaaaaaaaaaaaaaaaaaaaaaaaaaaaaaaaaa") "dup" "d" "h"
        [⟨"pending.json", some [⟨"dup", "u0", "t0", "x0", "d0", "s0"⟩]⟩]).written.getD
          []).map PendingItem.id).Nodup := by
  decide

/-- Claim C9 (amended): appending preserves pairwise-distinct `id`s in the
stored queue document provided the freshly generated id does not already
occur among the queue's ids — the freshness the code leaves to randomness. -/
theorem appendId_nodup (s : Store) (u nid d ho html : String) (hu : u ≠ "")
    (hl : ¬ (extractContent html).text.length < 50)
    (hfresh : nid ∉ (readPending s).map PendingItem.id)
    (hnd : ((readPending s).map PendingItem.id).Nodup) :
    (((handler true "POST" u (.ok html) nid d ho s).written.getD []).map
      PendingItem.id).Nodup := by
  simp only [handler_ok u nid d ho html s hu hl, Option.getD_some, List.map_cons,
    List.nodup_cons]
  exact ⟨hfresh, hnd⟩

theorem appendId_nodup_w :
    (((handler true "POST" "http://x" (.ok
        "aaaaaaaaaaaaaaaaaaaaaaaaaaaaaaaaaaaaaaaaaaaaaaaaaaaaaaaaaaaa") "bbb" "d" "h"
        [⟨"pending.json", some [⟨"aaa", "u0", "t0", "x0", "d0", "s0"⟩]⟩]).written.getD
          []).map PendingItem.id).Nodup :=
  appendId_nodup [⟨"pending.json", some [⟨"aaa", "u0", "t0", "x0", "d0", "s0"⟩]⟩]
    "http://x" "bbb" "d" "h"
    "aaaaaaaaaaaaaaaaaaaaaaaaaaaaaaaaaaaaaaaaaaaaaaaaaaaaaaaaaaaa"
    (by decide) (by decide) (by decide) (by decide)

/-- Claim C10: when `pending.json` exists in the store but not among the
first 100 listed blobs, the queue read yields the empty sequence and a
successful ingestion overwrites the queue document with a one-item array,
silently discarding every previously queued item. -/
theorem listLimit_truncates (s1 s2 : Store) (L : List PendingItem)
    (h100 : 100 ≤ s1.length) (hno : ∀ b ∈ s1, b.pathname ≠ "pending.json")
    (u nid d ho html : String) (hu : u ≠ "")
    (hl : ¬ (extractContent html).text.length < 50) :
    readPending (s1 ++ ⟨"pending.json", some L⟩ :: s2) = [] ∧
    (handler true "POST" u (.ok html) nid d ho
        (s1 ++ ⟨"pending.json", some L⟩ :: s2)).written =
      some [⟨nid, u, (extractContent html).title, (extractContent html).text, d, ho⟩] ∧
    (handler true "POST" u (.ok html) nid d ho
        (s1 ++ ⟨"pending.json", some L⟩ :: s2)).store =
      s1 ++ ⟨"pending.json",
        some [⟨nid, u, (extractContent html).title, (extractContent html).text, d,
          ho⟩]⟩ :: s2 := by
  have hfind : findPendingIn 100 (s1 ++ ⟨"pending.json", some L⟩ :: s2) = none :=
    findPendingIn_none_of_skip 100 s1 _ h100 hno
  have hr : readPending (s1 ++ ⟨"pending.json", some L⟩ :: s2) = [] := by
    rw [readPending, hfind]
  refine ⟨hr, ?_, ?_⟩
  · simp only [handler_ok u nid d ho html _ hu hl, hr]
  · simp only [handler_ok u nid d ho html _ hu hl, hr]
    exact putPending_skip s1 hno L s2 _

theorem listLimit_truncates_w :
    readPending (List.replicate 100 (⟨"blobs/x", none⟩ : Blob) ++
        (⟨"pending.json", some [⟨"old", "u0", "t0", "x0", "d0", "s0"⟩]⟩ : Blob) :: []) =
      [] ∧
    (handler true "POST" "http://x" (.ok
        "aaaaaaaaaaaaaaaaaaaaaaaaaaaaaaaaaaaaaaaaaaaaaaaaaaaaaaaaaaaa") "i" "d" "h"
        (List.replicate 100 (⟨"blobs/x", none⟩ : Blob) ++
          (⟨"pending.json", some [⟨"old", "u0", "t0", "x0", "d0", "s0"⟩]⟩ : Blob) ::
            [])).written =
      some [⟨"i", "http://x",
        (extractContent "aaaaaaaaaaaaaaaaaaaaaaaaaaaaaaaaaaaaaaaaaaaaaaaaaaaaaaaaaaaa").title,
        (extractContent "aaaaaaaaaaaaaaaaaaaaaaaaaaaaaaaaaaaaaaaaaaaaaaaaaaaaaaaaaaaa").text,
        "d", "h"⟩] ∧
    (handler true "POST" "http://x" (.ok
        "aaaaaaaaaaaaaaaaaaaaaaaaaaaaaaaaaaaaaaaaaaaaaaaaaaaaaaaaaaaa") "i" "d" "h"
        (List.replicate 100 (⟨"blobs/x", none⟩ : Blob) ++
          (⟨"pending.json", some [⟨"old", "u0", "t0", "x0", "d0", "s0"⟩]⟩ : Blob) ::
            [])).store =
      List.replicate 100 (⟨"blobs/x", none⟩ : Blob) ++
        (⟨"pending.json", some [⟨"i", "http://x",
          (extractContent "aaaaaaaaaaaaaaaaaaaaaaaaaaaaaaaaaaaaaaaaaaaaaaaaaaaaaaaaaaaa").title,
          (extractContent "aaaaaaaaaaaaaaaaaaaaaaaaaaaaaaaaaaaaaaaaaaaaaaaaaaaaaaaaaaaa").text,
          "d", "h"⟩]⟩ : Blob) :: [] := by
  refine listLimit_truncates (List.replicate 100 ⟨"blobs/x", none⟩) []
    [⟨"old", "u0", "t0", "x0", "d0", "s0"⟩] (by simp) ?_ "http://x" "i" "d" "h"
    "aaaaaaaaaaaaaaaaaaaaaaaaaaaaaaaaaaaaaaaaaaaaaaaaaaaaaaaaaaaa"
    (by decide) (by decide)
  intro b hb
  rw [List.eq_of_mem_replicate hb]
  decide

end Ingest
